import Mathlib

/-!
Verification of the external natural merge sort implementation
(external_sort/sort.py, external_sort/reader.py, external_sort/threads.py).

The record-level behaviour of the algorithm is embedded shallowly:
a source file is a list of already-parsed records, the two temporary
tapes are lists, and the comparator is an arbitrary boolean function
cmp taking the reverse flag, as in the Python code.
-/

namespace ExternalSort

variable {α : Type} (cmp : α → α → Bool → Bool) (rev : Bool)

/-- Default comparator of split_series (sort.py line 125):
lambda x, y, r: (x >= y) if r else (x <= y). -/
def defaultCmp (x y : Int) (r : Bool) : Bool :=
  if r then decide (x ≥ y) else decide (x ≤ y)

/-- Tail of the run-splitting scan of split_series (sort.py lines 242-247).
The accumulator buf is the previously written record, which is the
current destination tape (false = tape 0).  Returns the remainders of
the two tapes together with the splitted flag contribution. -/
def splitGo (buf : α) (which : Bool) : List α → List α × List α × Bool
  | [] => ([], [], false)
  | e :: rest =>
    let w := if cmp buf e rev then which else !which
    let (t0, t1, s) := splitGo e w rest
    if w then (t0, e :: t1, s || !(cmp buf e rev))
    else (e :: t0, t1, s || !(cmp buf e rev))

/-- Run-splitting phase of split_series (sort.py lines 231-247): the first
record goes to tape 0, each later record flips the destination tape when
the comparator fails against the previous record.  An empty source yields
two empty tapes and no split. -/
def splitSeriesPass : List α → List α × List α × Bool
  | [] => ([], [], false)
  | x :: rest =>
    let (t0, t1, s) := splitGo cmp rev x false rest
    (x :: t0, t1, s)

/-- Scan of the generator done by the loop of _remain_series (sort.py lines
172-176): records are copied while the comparator holds against the fixed
base value cur; the first record breaking it is returned as the new buffer
together with the rest of the generator. -/
def remainScan (cur : α) : List α → List α × Option α × List α
  | [] => ([], none, [])
  | num :: rest =>
    if cmp cur num rev then
      let (w, b, r) := remainScan cur rest
      (num :: w, b, r)
    else ([], some num, rest)

theorem remainScan_eq_some (cur : α) (l w : List α) (num : α)
    (rest : List α) (h : remainScan cmp rev cur l = (w, some num, rest)) :
    l = w ++ num :: rest := by
  induction l generalizing w with
  | nil => simp [remainScan] at h
  | cons x xs ih =>
    rcases hr : remainScan cmp rev cur xs with ⟨w', b', r'⟩
    simp only [remainScan, hr] at h
    by_cases hc : cmp cur x rev = true
    · simp [hc] at h
      obtain ⟨h1, h2, h3⟩ := h
      subst h1; subst h2; subst h3
      have := ih w' hr
      simp [this]
    · simp [hc] at h
      obtain ⟨h1, h2, h3⟩ := h
      subst h1; subst h2; subst h3
      simp

theorem remainScan_eq_none (cur : α) (l w : List α)
    (rest : List α) (h : remainScan cmp rev cur l = (w, none, rest)) :
    l = w ∧ rest = [] := by
  induction l generalizing w with
  | nil =>
    simp [remainScan] at h
    obtain ⟨h1, h2⟩ := h
    exact ⟨h1.symm, h2⟩
  | cons x xs ih =>
    rcases hr : remainScan cmp rev cur xs with ⟨w', b', r'⟩
    simp only [remainScan, hr] at h
    by_cases hc : cmp cur x rev = true
    · simp [hc] at h
      obtain ⟨h1, h2, h3⟩ := h
      subst h1; subst h2; subst h3
      obtain ⟨ha, hb⟩ := ih w' hr
      exact ⟨by simp [ha], hb⟩
    · simp [hc] at h

theorem remainScan_some_length (cur : α) (l w : List α) (num : α)
    (rest : List α) (h : remainScan cmp rev cur l = (w, some num, rest)) :
    rest.length < l.length := by
  have := remainScan_eq_some cmp rev cur l w num rest h
  subst this
  simp [List.length_append]
  omega

/-- Main loop of _natural_merge (sort.py lines 186-222).  State: the two
buffered records b_buf and c_buf, the rests of the two tape generators,
and the two await flags.  The b_await branch drains tape 1 via the
_remain_series scan; the symmetric branch drains tape 0; otherwise the
two buffers are compared and the favored tape advances, raising its
await flag when its run breaks, or draining the other tape entirely when
it is exhausted (the _remain_all calls). -/
def mergeLoop (bbuf : α) (bs : List α) (cbuf : α) (cs : List α)
    (bA cA : Bool) : List α :=
  match bA, cA with
  | true, cA =>
    match h : remainScan cmp rev cbuf cs with
    | (w, some num, rest) => cbuf :: w ++ mergeLoop bbuf bs num rest false cA
    | (w, none, _) => cbuf :: w ++ bbuf :: bs
  | false, true =>
    match h : remainScan cmp rev bbuf bs with
    | (w, some num, rest) => bbuf :: w ++ mergeLoop num rest cbuf cs false false
    | (w, none, _) => bbuf :: w ++ cbuf :: cs
  | false, false =>
    if cmp bbuf cbuf rev then
      match bs with
      | [] => bbuf :: cbuf :: cs
      | num :: rest => bbuf :: mergeLoop num rest cbuf cs (!(cmp bbuf num rev)) false
    else
      match cs with
      | [] => cbuf :: bbuf :: bs
      | num :: rest => cbuf :: mergeLoop bbuf bs num rest false (!(cmp cbuf num rev))
termination_by bs.length + cs.length
decreasing_by
  · have := remainScan_some_length cmp rev cbuf cs w num rest h
    omega
  · have := remainScan_some_length cmp rev bbuf bs w num rest h
    omega
  · simp [List.length_cons]
  · simp [List.length_cons]

theorem mergeLoop_bA_some (bbuf : α) (bs : List α) (cbuf : α)
    (cs w : List α) (num : α) (rest : List α) (cA : Bool)
    (h : remainScan cmp rev cbuf cs = (w, some num, rest)) :
    mergeLoop cmp rev bbuf bs cbuf cs true cA =
      cbuf :: w ++ mergeLoop cmp rev bbuf bs num rest false cA := by
  rw [mergeLoop.eq_1]
  split
  next w1 num1 rest1 heq =>
    rw [h] at heq
    simp only [Prod.mk.injEq, Option.some.injEq] at heq
    obtain ⟨rfl, rfl, rfl⟩ := heq
    rfl
  next w1 snd heq =>
    rw [h] at heq
    simp at heq

theorem mergeLoop_bA_none (bbuf : α) (bs : List α) (cbuf : α)
    (cs w snd : List α) (cA : Bool)
    (h : remainScan cmp rev cbuf cs = (w, none, snd)) :
    mergeLoop cmp rev bbuf bs cbuf cs true cA = cbuf :: w ++ bbuf :: bs := by
  rw [mergeLoop.eq_1]
  split
  next w1 num1 rest1 heq =>
    rw [h] at heq
    simp at heq
  next w1 snd1 heq =>
    rw [h] at heq
    simp only [Prod.mk.injEq] at heq
    obtain ⟨rfl, -⟩ := heq
    rfl

theorem mergeLoop_cA_some (bbuf : α) (bs w : List α) (num : α)
    (rest : List α) (cbuf : α) (cs : List α)
    (h : remainScan cmp rev bbuf bs = (w, some num, rest)) :
    mergeLoop cmp rev bbuf bs cbuf cs false true =
      bbuf :: w ++ mergeLoop cmp rev num rest cbuf cs false false := by
  rw [mergeLoop.eq_2]
  split
  next w1 num1 rest1 heq =>
    rw [h] at heq
    simp only [Prod.mk.injEq, Option.some.injEq] at heq
    obtain ⟨rfl, rfl, rfl⟩ := heq
    rfl
  next w1 snd heq =>
    rw [h] at heq
    simp at heq

theorem mergeLoop_cA_none (bbuf : α) (bs w snd : List α) (cbuf : α)
    (cs : List α) (h : remainScan cmp rev bbuf bs = (w, none, snd)) :
    mergeLoop cmp rev bbuf bs cbuf cs false true = bbuf :: w ++ cbuf :: cs := by
  rw [mergeLoop.eq_2]
  split
  next w1 num1 rest1 heq =>
    rw [h] at heq
    simp at heq
  next w1 snd1 heq =>
    rw [h] at heq
    simp only [Prod.mk.injEq] at heq
    obtain ⟨rfl, -⟩ := heq
    rfl

theorem mergeLoop_cmpT_nil (bbuf cbuf : α) (cs : List α)
    (h : cmp bbuf cbuf rev = true) :
    mergeLoop cmp rev bbuf [] cbuf cs false false = bbuf :: cbuf :: cs := by
  rw [mergeLoop.eq_def]
  simp [h]

theorem mergeLoop_cmpT_cons (bbuf : α) (num : α) (rest : List α)
    (cbuf : α) (cs : List α) (h : cmp bbuf cbuf rev = true) :
    mergeLoop cmp rev bbuf (num :: rest) cbuf cs false false =
      bbuf :: mergeLoop cmp rev num rest cbuf cs (!(cmp bbuf num rev)) false := by
  rw [mergeLoop.eq_def]
  simp [h]

theorem mergeLoop_cmpF_nil (bbuf : α) (bs : List α) (cbuf : α)
    (h : cmp bbuf cbuf rev = false) :
    mergeLoop cmp rev bbuf bs cbuf [] false false = cbuf :: bbuf :: bs := by
  rw [mergeLoop.eq_def]
  simp [h]

theorem mergeLoop_cmpF_cons (bbuf : α) (bs : List α) (cbuf : α)
    (num : α) (rest : List α) (h : cmp bbuf cbuf rev = false) :
    mergeLoop cmp rev bbuf bs cbuf (num :: rest) false false =
      cbuf :: mergeLoop cmp rev bbuf bs num rest false (!(cmp cbuf num rev)) := by
  rw [mergeLoop.eq_def]
  simp [h]

/-- Merge phase of _natural_merge (sort.py lines 178-222): the two tapes
are opened as generators, the first record of each is buffered, and the
loop runs with both await flags cleared.  The code never reaches this
point with an empty tape (a merge only happens after a split, which
fills both tapes); the one-sided cases are totalized by copying the
other tape, which is also what the final _remain_all drain does. -/
def naturalMerge : List α → List α → List α
  | [], t1 => t1
  | t0, [] => t0
  | b :: bs, c :: cs => mergeLoop cmp rev b bs c cs false false

/-- Recursive pass controller of split_series (sort.py lines 228-268) at
record level, with explicit fuel: each pass splits the current file into
two tapes; when a split happened the tapes are merged and the controller
recurses on the merged file, otherwise the file is already sorted and is
the result.  An empty source is treated as already sorted (lines
232-236). -/
def splitSeries (fuel : Nat) (l : List α) : Option (List α) :=
  match fuel with
  | 0 => none
  | fuel + 1 =>
    match splitSeriesPass cmp rev l with
    | (t0, t1, s) =>
      if s then splitSeries fuel (naturalMerge cmp rev t0 t1) else some l

/-- Number of merge passes performed by the recursion of split_series
until completion, with explicit fuel. -/
def mergePasses (fuel : Nat) (l : List α) : Option Nat :=
  match fuel with
  | 0 => none
  | fuel + 1 =>
    match splitSeriesPass cmp rev l with
    | (t0, t1, s) =>
      if s then (mergePasses fuel (naturalMerge cmp rev t0 t1)).map (· + 1)
      else some 0

example : splitSeriesPass defaultCmp false [3, 1, 2] = ([3], [1, 2], true) := by
  decide

example : splitSeries defaultCmp false 3 [3, 1, 2] = some [1, 2, 3] := by
  simp [splitSeries, splitSeriesPass, splitGo, naturalMerge, mergeLoop,
    remainScan, defaultCmp]

example : splitSeries defaultCmp true 3 [3, 1, 2] = some [3, 2, 1] := by
  simp [splitSeries, splitSeriesPass, splitGo, naturalMerge, mergeLoop,
    remainScan, defaultCmp]

example : mergePasses defaultCmp false 8 [1, 0, 1, 2, 0, 2, 1] = some 3 := by
  simp [mergePasses, splitSeriesPass, splitGo, naturalMerge, mergeLoop,
    remainScan, defaultCmp]

theorem splitGo_splitted_false_iff (buf : α) (w : Bool) (l : List α) :
    (splitGo cmp rev buf w l).2.2 = false ↔
      List.Chain' (fun a b => cmp a b rev = true) (buf :: l) := by
  induction l generalizing buf w with
  | nil => simp [splitGo]
  | cons e rest ih =>
    rcases hr : splitGo cmp rev e (if cmp buf e rev then w else !w) rest
      with ⟨t0, t1, s⟩
    have hs : (splitGo cmp rev buf w (e :: rest)).2.2 =
        (s || !(cmp buf e rev)) := by
      simp only [splitGo, hr]
      by_cases hw : (if cmp buf e rev then w else !w) = true <;> simp [hw]
    rw [hs, List.chain'_cons]
    have := ih e (if cmp buf e rev then w else !w)
    rw [hr] at this
    simp only [Bool.or_eq_false_iff, Bool.not_eq_false', this]
    tauto

theorem splitSeriesPass_splitted_false_iff (l : List α) :
    (splitSeriesPass cmp rev l).2.2 = false ↔
      List.Chain' (fun a b => cmp a b rev = true) l := by
  match l with
  | [] => simp [splitSeriesPass]
  | x :: rest =>
    rcases hr : splitGo cmp rev x false rest with ⟨t0, t1, s⟩
    have := splitGo_splitted_false_iff cmp rev x false rest
    rw [hr] at this
    simpa [splitSeriesPass, hr] using this

/-- C1.  For every source file that split_series sorts to completion in
some number of passes, the final output is sorted: every adjacent pair
(x, y) of the output satisfies cmp x y rev — non-decreasing under the
default comparator, non-increasing when rev is true. -/
theorem sortedness (fuel : Nat) (l out : List α)
    (h : splitSeries cmp rev fuel l = some out) :
    List.Chain' (fun a b => cmp a b rev = true) out := by
  induction fuel generalizing l with
  | zero => simp [splitSeries] at h
  | succ n ih =>
    rcases hp : splitSeriesPass cmp rev l with ⟨t0, t1, s⟩
    simp only [splitSeries, hp] at h
    cases s with
    | true =>
      simp only [if_pos] at h
      exact ih (naturalMerge cmp rev t0 t1) h
    | false =>
      simp only [Bool.false_eq_true, if_false, Option.some.injEq] at h
      subst h
      have := splitSeriesPass_splitted_false_iff cmp rev l
      rw [hp] at this
      exact this.mp rfl

theorem sortedness_witness :
    splitSeries defaultCmp false 3 [3, 1, 2] = some [1, 2, 3] ∧
      List.Chain' (fun a b => defaultCmp a b false = true) [1, 2, 3] := by
  have h : splitSeries defaultCmp false 3 [3, 1, 2] = some [1, 2, 3] := by
    simp [splitSeries, splitSeriesPass, splitGo, naturalMerge, mergeLoop,
      remainScan, defaultCmp]
  exact ⟨h, sortedness defaultCmp false 3 [3, 1, 2] [1, 2, 3] h⟩

theorem splitGo_conserves (buf : α) (w : Bool) (l : List α) :
    ((splitGo cmp rev buf w l).1 : Multiset α) + ↑(splitGo cmp rev buf w l).2.1
      = (l : Multiset α) := by
  induction l generalizing buf w with
  | nil => simp [splitGo]
  | cons e rest ih =>
    rcases hr : splitGo cmp rev e (if cmp buf e rev then w else !w) rest
      with ⟨t0, t1, s⟩
    have := ih e (if cmp buf e rev then w else !w)
    rw [hr] at this
    simp only [splitGo, hr]
    by_cases hw : (if cmp buf e rev then w else !w) = true
    · simp only [hw, if_pos]
      simp only [← Multiset.cons_coe, ← Multiset.singleton_add, ← this]
      abel
    · simp only [Bool.not_eq_true] at hw
      simp only [hw, Bool.false_eq_true, if_false]
      simp only [← Multiset.cons_coe, ← Multiset.singleton_add, ← this]
      abel

theorem splitSeriesPass_conserves (l : List α) :
    ((splitSeriesPass cmp rev l).1 : Multiset α) +
      ↑(splitSeriesPass cmp rev l).2.1 = (l : Multiset α) := by
  match l with
  | [] => simp [splitSeriesPass]
  | x :: rest =>
    rcases hr : splitGo cmp rev x false rest with ⟨t0, t1, s⟩
    have := splitGo_conserves cmp rev x false rest
    rw [hr] at this
    simp only [splitSeriesPass, hr]
    simp only [← Multiset.cons_coe, ← Multiset.singleton_add, ← this]
    abel

theorem mergeLoop_conserves (bbuf : α) (bs : List α) (cbuf : α)
    (cs : List α) (bA cA : Bool) :
    ((mergeLoop cmp rev bbuf bs cbuf cs bA cA : List α) : Multiset α) =
      ↑(bbuf :: bs) + ↑(cbuf :: cs) := by
  induction bbuf, bs, cbuf, cs, bA, cA using mergeLoop.induct cmp rev with
  | case1 bbuf bs cbuf cs cA w num rest h ih =>
    have hcs := remainScan_eq_some cmp rev cbuf cs w num rest h
    rw [mergeLoop_bA_some cmp rev bbuf bs cbuf cs w num rest cA h, hcs]
    simp only [← Multiset.coe_add, ← Multiset.cons_coe,
      ← Multiset.singleton_add, ih]
    abel
  | case2 bbuf bs cbuf cs cA w snd h =>
    obtain ⟨hcs, -⟩ := remainScan_eq_none cmp rev cbuf cs w snd h
    rw [mergeLoop_bA_none cmp rev bbuf bs cbuf cs w snd cA h, hcs]
    simp only [← Multiset.coe_add, ← Multiset.cons_coe,
      ← Multiset.singleton_add]
    abel
  | case3 bbuf bs cbuf cs w num rest h ih =>
    have hbs := remainScan_eq_some cmp rev bbuf bs w num rest h
    rw [mergeLoop_cA_some cmp rev bbuf bs w num rest cbuf cs h, hbs]
    simp only [← Multiset.coe_add, ← Multiset.cons_coe,
      ← Multiset.singleton_add, ih]
    abel
  | case4 bbuf bs cbuf cs w snd h =>
    obtain ⟨hbs, -⟩ := remainScan_eq_none cmp rev bbuf bs w snd h
    rw [mergeLoop_cA_none cmp rev bbuf bs w snd cbuf cs h, hbs]
    simp only [← Multiset.coe_add, ← Multiset.cons_coe,
      ← Multiset.singleton_add]
  | case5 bbuf cbuf cs hc =>
    rw [mergeLoop_cmpT_nil cmp rev bbuf cbuf cs hc]
    simp only [← Multiset.coe_add, ← Multiset.cons_coe,
      ← Multiset.singleton_add]
    abel
  | case6 bbuf cbuf cs hc num rest ih =>
    rw [mergeLoop_cmpT_cons cmp rev bbuf num rest cbuf cs hc]
    simp only [← Multiset.coe_add, ← Multiset.cons_coe,
      ← Multiset.singleton_add, ih]
    abel
  | case7 bbuf bs cbuf hc =>
    rw [mergeLoop_cmpF_nil cmp rev bbuf bs cbuf
      (Bool.not_eq_true _ ▸ hc)]
    simp only [← Multiset.coe_add, ← Multiset.cons_coe,
      ← Multiset.singleton_add]
    abel
  | case8 bbuf bs cbuf hc num rest ih =>
    rw [mergeLoop_cmpF_cons cmp rev bbuf bs cbuf num rest
      (Bool.not_eq_true _ ▸ hc)]
    simp only [← Multiset.coe_add, ← Multiset.cons_coe,
      ← Multiset.singleton_add, ih]
    abel

theorem naturalMerge_conserves (t0 t1 : List α) :
    ((naturalMerge cmp rev t0 t1 : List α) : Multiset α) =
      (t0 : Multiset α) + ↑t1 := by
  match t0, t1 with
  | [], t1 => simp [naturalMerge]
  | b :: bs, [] => simp [naturalMerge]
  | b :: bs, c :: cs =>
    rw [show naturalMerge cmp rev (b :: bs) (c :: cs) =
      mergeLoop cmp rev b bs c cs false false from rfl]
    exact mergeLoop_conserves cmp rev b bs c cs false false

/-- C2.  Record conservation.  First conjunct: for every pass, the two
temporary tapes written by the run splitter jointly contain exactly the
records of that pass's input (as a multiset, so no record is created,
dropped, or duplicated, and each record is routed to exactly one tape).
Second conjunct: a merge pass conserves the records of the two tapes.
Third conjunct: for the whole job, the multiset of output records equals
the multiset of input records. -/
theorem conservation :
    (∀ l : List α, ((splitSeriesPass cmp rev l).1 : Multiset α) +
        ↑(splitSeriesPass cmp rev l).2.1 = (l : Multiset α)) ∧
    (∀ t0 t1 : List α, ((naturalMerge cmp rev t0 t1 : List α) : Multiset α) =
        (t0 : Multiset α) + ↑t1) ∧
    (∀ (fuel : Nat) (l out : List α), splitSeries cmp rev fuel l = some out →
        (out : Multiset α) = (l : Multiset α)) := by
  refine ⟨splitSeriesPass_conserves cmp rev, naturalMerge_conserves cmp rev, ?_⟩
  intro fuel
  induction fuel with
  | zero => intro l out h; simp [splitSeries] at h
  | succ n ih =>
    intro l out h
    rcases hp : splitSeriesPass cmp rev l with ⟨t0, t1, s⟩
    simp only [splitSeries, hp] at h
    cases s with
    | true =>
      simp only [if_pos] at h
      have hmerge := naturalMerge_conserves cmp rev t0 t1
      have hpass := splitSeriesPass_conserves cmp rev l
      rw [hp] at hpass
      rw [ih (naturalMerge cmp rev t0 t1) out h, hmerge]
      exact hpass
    | false =>
      simp only [Bool.false_eq_true, if_false, Option.some.injEq] at h
      subst h
      rfl

theorem conservation_witness :
    splitSeries defaultCmp false 3 [3, 1, 2] = some [1, 2, 3] ∧
      (([1, 2, 3] : List Int) : Multiset Int) =
        (([3, 1, 2] : List Int) : Multiset Int) := by
  have h : splitSeries defaultCmp false 3 [3, 1, 2] = some [1, 2, 3] := by
    simp [splitSeries, splitSeriesPass, splitGo, naturalMerge, mergeLoop,
      remainScan, defaultCmp]
  exact ⟨h, (conservation defaultCmp false).2.2 3 [3, 1, 2] [1, 2, 3] h⟩

/-- Destination routing exactly as claim C3 words it: for each record r
after the first, the destination tape index flips exactly when the
comparator fails against the previous record; the record is written to
the (possibly flipped) current tape and becomes the new previous record.
Each record is paired with its destination tape and with whether a flip
happened at it. -/
def claimRoute (prev : α) (w : Bool) : List α → List (α × Bool × Bool)
  | [] => []
  | r :: rest =>
    let flip := !(cmp prev r rev)
    let w' := if flip then !w else w
    (r, w', flip) :: claimRoute r w' rest

theorem splitGo_eq_claimRoute (buf : α) (w : Bool) (l : List α) :
    splitGo cmp rev buf w l =
      (((claimRoute cmp rev buf w l).filter (fun p => !p.2.1)).map
          (fun p => p.1),
       ((claimRoute cmp rev buf w l).filter (fun p => p.2.1)).map
          (fun p => p.1),
       (claimRoute cmp rev buf w l).any (fun p => p.2.2)) := by
  induction l generalizing buf w with
  | nil => simp [splitGo, claimRoute]
  | cons e rest ih =>
    by_cases hc : cmp buf e rev = true
    · simp [splitGo, claimRoute, hc, ih e w]
      cases w <;> simp
    · simp only [Bool.not_eq_true] at hc
      simp [splitGo, claimRoute, hc, ih e (!w)]
      cases w <;> simp

/-- C3.  Behaviour of the run splitter: the first record of a non-empty
input is written to tape 0, every later record is routed by flipping the
destination exactly when the comparator fails against the previous
record (claimRoute), and the splitted flag is true iff at least one flip
occurred. -/
theorem splitter_behavior (x : α) (rest : List α) :
    splitSeriesPass cmp rev (x :: rest) =
      (x :: ((claimRoute cmp rev x false rest).filter
          (fun p => !p.2.1)).map (fun p => p.1),
       ((claimRoute cmp rev x false rest).filter
          (fun p => p.2.1)).map (fun p => p.1),
       (claimRoute cmp rev x false rest).any (fun p => p.2.2)) := by
  simp only [splitSeriesPass, splitGo_eq_claimRoute cmp rev x false rest]

/-- C4.  Stability of the merge in favor of tape 0: the default
comparator is reflexive, so equal values compare true (first conjunct),
and in the merge loop, when neither await flag is set and the comparator
favors the buffered record b of tape 0 over the buffered record c of
tape 1 (including ties under the default comparator), b is the next
record written to the output, before c. -/
theorem merge_stability :
    (∀ (x : Int) (r : Bool), defaultCmp x x r = true) ∧
    (∀ (bbuf : α) (bs : List α) (cbuf : α) (cs : List α),
      cmp bbuf cbuf rev = true →
        (mergeLoop cmp rev bbuf bs cbuf cs false false).head? = some bbuf) := by
  constructor
  · intro x r
    simp [defaultCmp]
  · intro bbuf bs cbuf cs h
    match bs with
    | [] => rw [mergeLoop_cmpT_nil cmp rev bbuf cbuf cs h]; rfl
    | num :: rest =>
      rw [mergeLoop_cmpT_cons cmp rev bbuf num rest cbuf cs h]
      rfl

theorem merge_stability_witness :
    defaultCmp 2 2 false = true ∧
      (mergeLoop defaultCmp false 2 [] 2 [] false false).head? = some 2 := by
  have h : defaultCmp 2 2 false = true := by decide
  exact ⟨h, (merge_stability defaultCmp false).2 2 [] 2 [] h⟩

theorem splitGo_sorted (buf : α) (l : List α)
    (h : List.Chain' (fun a b => cmp a b rev = true) (buf :: l)) :
    splitGo cmp rev buf false l = (l, [], false) := by
  induction l generalizing buf with
  | nil => simp [splitGo]
  | cons e rest ih =>
    rw [List.chain'_cons] at h
    obtain ⟨hc, hrest⟩ := h
    simp [splitGo, hc, ih e hrest]

/-- File identities involved in one sorting job: the source file, the
requested output file, and the two temporary tapes of the job's Reader.
Temporary file names are random (reader.py lines 77-87); only their
contents matter here, so they are identified by their role. -/
inductive FileId
  | srcF
  | outF
  | tmp0F
  | tmp1F
deriving DecidableEq

/-- Record-level contents of the four files of one job.  The output file
may be absent: sort.py line 263 creates it before copying.  Deletion of
the temporary files on completion is not tracked here (it is modelled
with the error-path file-system state below); only contents are. -/
structure Store (α : Type) where
  src : List α
  out : Option (List α)
  tmp0 : List α
  tmp1 : List α

def readF (st : Store α) : FileId → List α
  | .srcF => st.src
  | .outF => st.out.getD []
  | .tmp0F => st.tmp0
  | .tmp1F => st.tmp1

def writeF (st : Store α) : FileId → List α → Store α
  | .srcF, l => { st with src := l }
  | .outF, l => { st with out := some l }
  | .tmp0F, l => { st with tmp0 := l }
  | .tmp1F, l => { st with tmp1 := l }

/-- File-level model of split_series (sort.py lines 228-268) with the
path bookkeeping of the Reader (reader.py lines 140-152).  The pass
reads the file at rdPath (open_src_r); on the first pass with an output
path requested, src_path is swapped to the output path right after the
source is opened for reading (reader.py lines 149-152).  Both temporary
tapes are truncated and rewritten (open_tmp_w then the write_line calls).
An empty source returns after the tear_down (sort.py lines 232-236).
When a split happened, _natural_merge writes the merged records to the
file at the swapped path, because open_out_w opens self.src_path for
writing (reader.py line 143), and the controller recurses.  When no
split happened on the very first pass and an output was requested, tape
0 is copied to the output file, creating it when absent (sort.py lines
260-264). -/
def splitSeriesFS : Nat → Store α → FileId → Bool → Bool → Option (Store α)
  | 0, _, _, _, _ => none
  | fuel + 1, st, rdPath, firstIter, outReq =>
    match splitSeriesPass cmp rev (readF st rdPath) with
    | (t0, t1, s) =>
      match readF st rdPath with
      | [] => some (writeF (writeF st .tmp0F t0) .tmp1F t1)
      | _ :: _ =>
        if s then
          splitSeriesFS fuel
            (writeF (writeF (writeF st .tmp0F t0) .tmp1F t1)
              (if firstIter && outReq then FileId.outF else rdPath)
              (naturalMerge cmp rev t0 t1))
            (if firstIter && outReq then FileId.outF else rdPath) false outReq
        else
          if firstIter && outReq then
            some (writeF (writeF (writeF st .tmp0F t0) .tmp1F t1) .outF t0)
          else some (writeF (writeF st .tmp0F t0) .tmp1F t1)

theorem writeF_src_of_ne (st : Store α) (f : FileId) (l : List α)
    (h : f ≠ FileId.srcF) : (writeF st f l).src = st.src := by
  match f with
  | .srcF => exact absurd rfl h
  | .outF => rfl
  | .tmp0F => rfl
  | .tmp1F => rfl

theorem splitSeriesFS_outF_frame (fuel : Nat) (st st' : Store α)
    (fi : Bool)
    (h : splitSeriesFS cmp rev fuel st .outF fi true = some st') :
    st'.src = st.src := by
  induction fuel generalizing st fi with
  | zero => simp [splitSeriesFS] at h
  | succ n ih =>
    simp only [splitSeriesFS] at h
    rcases hp : splitSeriesPass cmp rev (readF st .outF) with ⟨t0, t1, s⟩
    rw [hp] at h
    have hpath : (if fi && true then FileId.outF else FileId.outF) =
        FileId.outF := by
      cases fi <;> rfl
    simp only [hpath] at h
    rcases hcontent : readF st .outF with - | ⟨x, rest⟩ <;> rw [hcontent] at h
    · simp only [Option.some.injEq] at h
      subst h
      simp [writeF]
    · cases s with
      | true =>
        simp only [if_pos] at h
        rw [ih _ _ h]
        simp [writeF]
      | false =>
        simp only [Bool.false_eq_true, if_false] at h
        cases hfi : fi && true <;> rw [hfi] at h
        · simp only [Bool.false_eq_true, if_false, Option.some.injEq] at h
          subst h
          simp [writeF]
        · simp only [if_pos, Option.some.injEq] at h
          subst h
          simp [writeF]

/-- C10.  Frame property of a job with a distinct output path: when at
least one split occurs on the first pass, the source file is read once
and never written again.  After the first pass the Reader's src_path is
swapped to the output path, so every merge write and the final result go
to the output file (or the temporary tapes) and the content of the
source file is unchanged when the job completes. -/
theorem source_frame (fuel : Nat) (st st' : Store α)
    (hsplit : (splitSeriesPass cmp rev st.src).2.2 = true)
    (h : splitSeriesFS cmp rev fuel st .srcF true true = some st') :
    st'.src = st.src := by
  match fuel with
  | 0 => simp [splitSeriesFS] at h
  | fuel + 1 =>
    simp only [splitSeriesFS] at h
    rcases hp : splitSeriesPass cmp rev (readF st .srcF) with ⟨t0, t1, s⟩
    rw [hp] at h
    have hread : readF st .srcF = st.src := rfl
    have hs : s = true := by
      rw [hread] at hp
      rw [hp] at hsplit
      exact hsplit
    subst hs
    rcases hcontent : readF st .srcF with - | ⟨x, rest⟩
    · rw [hread] at hcontent
      rw [hcontent] at hsplit
      simp [splitSeriesPass] at hsplit
    · rw [hcontent] at h
      simp only [Bool.and_self, if_pos] at h
      rw [splitSeriesFS_outF_frame cmp rev fuel _ st' false h]
      simp [writeF]

theorem source_frame_witness :
    (splitSeriesPass defaultCmp false
        (Store.src ⟨[2, 1], none, [], []⟩)).2.2 = true ∧
      ∃ st' : Store Int,
        splitSeriesFS defaultCmp false 3 ⟨[2, 1], none, [], []⟩ .srcF true
            true = some st' ∧ st'.src = [2, 1] := by
  have h1 : (splitSeriesPass defaultCmp false
      (Store.src ⟨[2, 1], none, [], []⟩)).2.2 = true := by decide
  have h2 : splitSeriesFS defaultCmp false 3
      (⟨[2, 1], none, [], []⟩ : Store Int) .srcF true true =
      some ⟨[2, 1], some [1, 2], [1, 2], []⟩ := by
    simp [splitSeriesFS, splitSeriesPass, splitGo, naturalMerge, mergeLoop,
      remainScan, defaultCmp, readF, writeF]
  exact ⟨h1, ⟨[2, 1], some [1, 2], [1, 2], []⟩, h2,
    source_frame defaultCmp false 3 ⟨[2, 1], none, [], []⟩ _ h1 h2⟩

theorem splitSeriesPass_sorted (x : α) (rest : List α)
    (h : List.Chain' (fun a b => cmp a b rev = true) (x :: rest)) :
    splitSeriesPass cmp rev (x :: rest) = (x :: rest, [], false) := by
  simp [splitSeriesPass, splitGo_sorted cmp rev x rest h]

/-- C9.  Idempotence on sorted input: splitting an already-sorted
non-empty input produces splitted = false on the very first pass (all
records land on tape 0), the job finishes with zero merge passes, the
resulting file content equals the input records, and when a distinct
output path was requested, the content of tape 0 is copied to the output
file, creating it when absent. -/
theorem idempotence (x : α) (rest : List α) (st : Store α)
    (hsorted : List.Chain' (fun a b => cmp a b rev = true) (x :: rest))
    (hsrc : st.src = x :: rest) :
    splitSeriesPass cmp rev (x :: rest) = (x :: rest, [], false) ∧
    splitSeries cmp rev 1 (x :: rest) = some (x :: rest) ∧
    mergePasses cmp rev 1 (x :: rest) = some 0 ∧
    splitSeriesFS cmp rev 1 st .srcF true true =
      some (Store.mk st.src (some (x :: rest)) (x :: rest) []) := by
  have hpass := splitSeriesPass_sorted cmp rev x rest hsorted
  refine ⟨hpass, ?_, ?_, ?_⟩
  · simp [splitSeries, hpass]
  · simp [mergePasses, hpass]
  · have hread : readF st .srcF = x :: rest := hsrc
    simp only [splitSeriesFS, hread, hpass]
    simp [writeF]

theorem idempotence_witness :
    List.Chain' (fun a b => defaultCmp a b false = true) [1, 2, 3] ∧
      (⟨[1, 2, 3], none, [], []⟩ : Store Int).src = [1, 2, 3] ∧
      splitSeriesFS defaultCmp false 1
          (⟨[1, 2, 3], none, [], []⟩ : Store Int) .srcF true true =
        some ⟨[1, 2, 3], some [1, 2, 3], [1, 2, 3], []⟩ := by
  have h1 : List.Chain' (fun a b => defaultCmp a b false = true)
      [1, 2, 3] := by simp [List.chain'_cons, defaultCmp]
  have h2 : (⟨[1, 2, 3], none, [], []⟩ : Store Int).src = [1, 2, 3] := rfl
  exact ⟨h1, h2,
    (idempotence defaultCmp false 1 [2, 3] ⟨[1, 2, 3], none, [], []⟩ h1
      h2).2.2.2⟩

/-- Status of an entry of Threads.tasks (threads.py lines 25-28): False
means the task was not picked up, a Thread object means it was picked up
(the table shows it as running), True means done.  A Thread that already
ran but was never marked done stays in the table as a Thread; the
started flag distinguishes a fresh Thread from one whose start method
was already called (starting a Thread twice raises RuntimeError). -/
inductive TaskStatus
  | pending
  | thread (started : Bool)
  | done
deriving DecidableEq

/-- Whether split_series reaches the Threads.done call for a given
source content: the empty-source early return (sort.py lines 232-236)
skips it, every terminating non-empty run ends in the non-splitted
branch which calls Threads.done (sort.py line 267). -/
def splitSeriesDone (fuel : Nat) (l : List α) : Option Bool :=
  match fuel with
  | 0 => none
  | fuel + 1 =>
    match l with
    | [] => some false
    | x :: rest =>
      match splitSeriesPass cmp rev (x :: rest) with
      | (t0, t1, s) =>
        if s then splitSeriesDone fuel (naturalMerge cmp rev t0 t1)
        else some true

theorem naturalMerge_ne_nil (t0 t1 : List α) (h : t0 ≠ []) :
    naturalMerge cmp rev t0 t1 ≠ [] := by
  intro hcontra
  have hcons := naturalMerge_conserves cmp rev t0 t1
  rw [hcontra] at hcons
  match t0 with
  | [] => exact h rfl
  | a :: t0' =>
    simp only [Multiset.coe_nil] at hcons
    have : (a :: t0' : Multiset α) + ↑t1 ≠ 0 := by
      simp [← Multiset.cons_coe]
    exact this hcons.symm

theorem splitSeriesPass_fst_ne_nil (x : α) (rest : List α) :
    (splitSeriesPass cmp rev (x :: rest)).1 ≠ [] := by
  rcases hr : splitGo cmp rev x false rest with ⟨t0, t1, s⟩
  simp [splitSeriesPass, hr]

theorem splitSeriesDone_iff_ne_nil (fuel : Nat) (l : List α) (b : Bool)
    (h : splitSeriesDone cmp rev fuel l = some b) : b = !l.isEmpty := by
  induction fuel generalizing l with
  | zero => simp [splitSeriesDone] at h
  | succ n ih =>
    match l with
    | [] =>
      simp [splitSeriesDone] at h
      simp [h]
    | x :: rest =>
      rcases hp : splitSeriesPass cmp rev (x :: rest) with ⟨t0, t1, s⟩
      simp only [splitSeriesDone, hp] at h
      cases s with
      | true =>
        simp only [if_pos] at h
        have := ih _ h
        rcases hm : naturalMerge cmp rev t0 t1 with - | ⟨y, ys⟩
        · have ht0 : t0 ≠ [] := by
            have := splitSeriesPass_fst_ne_nil cmp rev x rest
            rw [hp] at this
            exact this
          exact absurd hm (naturalMerge_ne_nil cmp rev t0 t1 ht0)
        · rw [hm] at this
          simpa using this
      | false =>
        simp only [Bool.false_eq_true, if_false, Option.some.injEq] at h
        simp [← h]

/-- Effect of one job's split_series run on its Threads.tasks entry: an
empty source leaves the status untouched (the early return never calls
Threads.done), a non-empty source ends with Threads.done, setting the
entry to True.  This is the content of splitSeriesDone_iff_ne_nil. -/
def runJobStatus (src : List α) (st : TaskStatus) : TaskStatus :=
  if src.isEmpty then st else TaskStatus.done

/-- Model of the total == 1 branch of sort_hub (sort.py lines 73-76):
the tasks table is created with the single source pending
(dict.fromkeys, line 58) and split_series runs synchronously. -/
def sortHubSingle (src : List α) : List (List α × TaskStatus) :=
  [(src, runJobStatus src TaskStatus.pending)]

def isThread : TaskStatus → Bool
  | .thread _ => true
  | _ => false

/-- Threads.workers (threads.py lines 56-69): number of entries holding
a Thread object, started or not, dead or not. -/
def workers (tasks : List (List α × TaskStatus)) : Nat :=
  tasks.countP (fun t => isThread t.2)

/-- Threads.all_done (threads.py lines 43-54): false iff some entry is
falsy, and only False (pending) is falsy — a Thread object or True are
both truthy. -/
def allDone (tasks : List (List α × TaskStatus)) : Bool :=
  !(tasks.any (fun t => t.2 == TaskStatus.pending))

/-- One promotion step of the inner while loop of sort_hub (sort.py
lines 93-104): Threads.get_free returns the first pending task
(threads.py lines 30-41) and a fresh Thread is stored for it; none when
no task is free. -/
def markThread : List (List α × TaskStatus) →
    Option (List (List α × TaskStatus))
  | [] => none
  | t :: rest =>
    if t.2 = TaskStatus.pending then
      some ((t.1, TaskStatus.thread false) :: rest)
    else (markThread rest).map (t :: ·)

/-- The inner while loop of sort_hub (lines 93-104) promotes pending
tasks one at a time while the worker count is below nflows, so it stops
after nflows - workers promotions or when no task is free. -/
def promote : Nat → List (List α × TaskStatus) →
    List (List α × TaskStatus)
  | 0, tasks => tasks
  | k + 1, tasks =>
    match markThread tasks with
    | some tasks' => promote k tasks'
    | none => tasks

/-- Threads.bound_workers (threads.py lines 71-85): starts every stored
Thread, then joins them all.  Starting an already-started Thread raises
RuntimeError, modelled as none.  Each started job runs split_series:
a non-empty source ends in Threads.done which overwrites the entry with
True, an empty source leaves the dead Thread in the table. -/
def boundWorkers (tasks : List (List α × TaskStatus)) :
    Option (List (List α × TaskStatus)) :=
  if tasks.any (fun t => t.2 == TaskStatus.thread true) then none
  else
    some (tasks.map (fun t =>
      match t.2 with
      | TaskStatus.thread false =>
        (t.1, runJobStatus t.1 (TaskStatus.thread true))
      | st => (t.1, st)))

/-- The bounded-concurrency branch of sort_hub (sort.py lines 89-105):
while not all tasks are done, promote pending tasks up to the worker
bound and run the batch.  Returns the final table and the sizes of the
batches that were started together (the set of concurrently running
jobs of each bound_workers call). -/
def sortHubBounded : Nat → Nat → List (List α × TaskStatus) →
    Option (List (List α × TaskStatus) × List Nat)
  | 0, _, _ => none
  | fuel + 1, nflows, tasks =>
    if allDone tasks then some (tasks, [])
    else
      match boundWorkers (promote (nflows - workers tasks) tasks) with
      | none => none
      | some tasks2 =>
        (sortHubBounded fuel nflows tasks2).map
          (fun p => (p.1, workers (promote (nflows - workers tasks) tasks) :: p.2))

theorem markThread_eq (tasks tasks' : List (List α × TaskStatus))
    (h : markThread tasks = some tasks') :
    ∃ pre src post, tasks = pre ++ (src, TaskStatus.pending) :: post ∧
      tasks' = pre ++ (src, TaskStatus.thread false) :: post := by
  induction tasks generalizing tasks' with
  | nil => simp [markThread] at h
  | cons t rest ih =>
    by_cases hp : t.2 = TaskStatus.pending
    · simp only [markThread, if_pos hp] at h
      simp only [Option.some.injEq] at h
      refine ⟨[], t.1, rest, ?_, by rw [← h]; simp⟩
      simp only [List.nil_append]
      rw [← hp]
    · simp only [markThread, if_neg hp] at h
      match hr : markThread rest with
      | none => rw [hr] at h; simp at h
      | some rest' =>
        rw [hr] at h
        simp at h
        obtain ⟨pre, s2, post, h1, h2⟩ := ih rest' hr
        exact ⟨t :: pre, s2, post, by simp [h1], by rw [← h]; simp [h2]⟩

theorem markThread_done_preserved (tasks tasks' : List (List α × TaskStatus))
    (h : markThread tasks = some tasks') (i : Nat) (src : List α)
    (hd : tasks[i]? = some (src, TaskStatus.done)) :
    tasks'[i]? = some (src, TaskStatus.done) := by
  obtain ⟨pre, s2, post, h1, h2⟩ := markThread_eq tasks tasks' h
  subst h1; subst h2
  rw [List.getElem?_append] at hd
  rw [List.getElem?_append]
  by_cases hi : i < pre.length
  · rw [if_pos hi] at hd
    rw [if_pos hi]
    exact hd
  · rw [if_neg hi] at hd
    rw [if_neg hi]
    rcases hk : i - pre.length with - | k
    · rw [hk] at hd
      simp at hd
    · rw [hk] at hd
      simpa using hd

theorem boundWorkers_done_preserved (tasks tasks' : List (List α × TaskStatus))
    (h : boundWorkers tasks = some tasks') (i : Nat) (src : List α)
    (hd : tasks[i]? = some (src, TaskStatus.done)) :
    tasks'[i]? = some (src, TaskStatus.done) := by
  simp only [boundWorkers] at h
  by_cases ha : tasks.any (fun t => t.2 == TaskStatus.thread true) = true
  · rw [if_pos ha] at h
    simp at h
  · rw [if_neg ha] at h
    simp only [Option.some.injEq] at h
    subst h
    rw [List.getElem?_map, hd]
    rfl

theorem promote_mem_thread_true (k : Nat)
    (tasks : List (List α × TaskStatus)) (t : List α × TaskStatus)
    (ht : t ∈ tasks) (hs : t.2 = TaskStatus.thread true) :
    t ∈ promote k tasks := by
  induction k generalizing tasks with
  | zero => exact ht
  | succ n ih =>
    simp only [promote]
    match hm : markThread tasks with
    | none => exact ht
    | some tasks' =>
      obtain ⟨pre, s2, post, h1, h2⟩ := markThread_eq tasks tasks' hm
      subst h1; subst h2
      refine ih _ ?_
      simp only [List.mem_append, List.mem_cons] at ht ⊢
      rcases ht with hpre | hrest
      · exact Or.inl hpre
      rcases hrest with heq | hpost
      · rw [heq] at hs
        simp at hs
      · exact Or.inr (Or.inr hpost)

theorem markThread_workers (tasks tasks' : List (List α × TaskStatus))
    (h : markThread tasks = some tasks') :
    workers tasks' = workers tasks + 1 := by
  obtain ⟨pre, s2, post, h1, h2⟩ := markThread_eq tasks tasks' h
  subst h1; subst h2
  simp [workers, List.countP_append, List.countP_cons, isThread]
  omega

theorem promote_workers (k : Nat) (tasks : List (List α × TaskStatus)) :
    workers (promote k tasks) ≤ workers tasks + k := by
  induction k generalizing tasks with
  | zero => simp [promote]
  | succ n ih =>
    simp only [promote]
    match hm : markThread tasks with
    | none =>
      show workers tasks ≤ workers tasks + (n + 1)
      omega
    | some tasks' =>
      show workers (promote n tasks') ≤ workers tasks + (n + 1)
      have h1 := markThread_workers tasks tasks' hm
      have h2 := ih tasks'
      omega

theorem promote_mem (k : Nat) (tasks : List (List α × TaskStatus))
    (t : List α × TaskStatus) (ht : t ∈ promote k tasks) :
    t ∈ tasks ∨ (t.2 = TaskStatus.thread false ∧
      (t.1, TaskStatus.pending) ∈ tasks) := by
  induction k generalizing tasks with
  | zero => exact Or.inl ht
  | succ n ih =>
    simp only [promote] at ht
    match hm : markThread tasks with
    | none =>
      rw [hm] at ht
      exact Or.inl ht
    | some tasks' =>
      rw [hm] at ht
      obtain ⟨pre, s2, post, h1, h2⟩ := markThread_eq tasks tasks' hm
      subst h1; subst h2
      rcases ih _ ht with hmem | ⟨hth, hpend⟩
      · simp only [List.mem_append, List.mem_cons] at hmem ⊢
        rcases hmem with hpre | heq | hpost
        · exact Or.inl (Or.inl hpre)
        · exact Or.inr ⟨by rw [heq], Or.inr (Or.inl (by rw [heq]))⟩
        · exact Or.inl (Or.inr (Or.inr hpost))
      · refine Or.inr ⟨hth, ?_⟩
        simp only [List.mem_append, List.mem_cons] at hpend ⊢
        rcases hpend with hpre | heq | hpost
        · exact Or.inl hpre
        · simp only [Prod.mk.injEq] at heq
          exact Or.inr (Or.inl (by simp [heq.1]))
        · exact Or.inr (Or.inr hpost)

/-- Loop-head invariant of the bounded scheduler: no freshly created but
unstarted Thread is in the table, a dead Thread in the table belongs to
an empty source, and an empty source is never marked done. -/
def SchedInv (t : List α × TaskStatus) : Prop :=
  t.2 ≠ TaskStatus.thread false ∧
  (t.2 = TaskStatus.thread true → t.1 = []) ∧
  (t.1 = [] → t.2 ≠ TaskStatus.done)

theorem boundWorkers_eq (tasks tasks' : List (List α × TaskStatus))
    (h : boundWorkers tasks = some tasks') :
    tasks.any (fun t => t.2 == TaskStatus.thread true) = false ∧
    tasks' = tasks.map (fun t =>
      match t.2 with
      | TaskStatus.thread false =>
        (t.1, runJobStatus t.1 (TaskStatus.thread true))
      | st => (t.1, st)) := by
  simp only [boundWorkers] at h
  by_cases ha : tasks.any (fun t => t.2 == TaskStatus.thread true) = true
  · rw [if_pos ha] at h
    simp at h
  · rw [if_neg ha] at h
    simp only [Option.some.injEq] at h
    refine ⟨?_, h.symm⟩
    cases hx : tasks.any (fun t => t.2 == TaskStatus.thread true) with
    | true => exact absurd hx ha
    | false => rfl

theorem sortHubBounded_spec (fuel nflows : Nat)
    (tasks final : List (List α × TaskStatus)) (batches : List Nat)
    (hInv : ∀ t ∈ tasks, SchedInv t)
    (h : sortHubBounded fuel nflows tasks = some (final, batches)) :
    (∀ b ∈ batches, b ≤ nflows) ∧
    (∀ t ∈ final, t.1 ≠ [] → t.2 = TaskStatus.done) ∧
    (∀ t ∈ final, t.1 = [] → t.2 ≠ TaskStatus.done) := by
  induction fuel generalizing tasks batches with
  | zero => simp [sortHubBounded] at h
  | succ n ih =>
    simp only [sortHubBounded] at h
    by_cases hdone : allDone tasks = true
    · rw [if_pos hdone] at h
      simp only [Option.some.injEq, Prod.mk.injEq] at h
      obtain ⟨h1, h2⟩ := h
      subst h1; subst h2
      refine ⟨by simp, ?_, ?_⟩
      · intro t ht hne
        obtain ⟨i1, i2, i3⟩ := hInv t ht
        simp only [allDone, Bool.not_eq_eq_eq_not, Bool.not_true,
          List.any_eq_false] at hdone
        have hpend := hdone t ht
        simp only [beq_iff_eq] at hpend
        match hs : t.2 with
        | TaskStatus.pending => exact absurd hs hpend
        | TaskStatus.thread false => exact absurd hs i1
        | TaskStatus.thread true => exact absurd (i2 hs) hne
        | TaskStatus.done => rfl
      · intro t ht hemp
        exact (hInv t ht).2.2 hemp
    · rw [if_neg hdone] at h
      match hb : boundWorkers (promote (nflows - workers tasks) tasks) with
      | none =>
        rw [hb] at h
        dsimp only at h
        exact absurd h (by simp)
      | some tasks2 =>
        rw [hb] at h
        dsimp only at h
        match hs : sortHubBounded n nflows tasks2 with
        | none =>
          rw [hs] at h
          simp at h
        | some (final2, batches2) =>
          rw [hs] at h
          simp at h
          obtain ⟨h1, h2⟩ := h
          subst h1; subst h2
          obtain ⟨hnothread, htasks2⟩ := boundWorkers_eq _ tasks2 hb
          have htasksfree : ∀ t ∈ tasks, t.2 ≠ TaskStatus.thread true := by
            intro t ht hcontra
            have hmem := promote_mem_thread_true (nflows - workers tasks)
              tasks t ht hcontra
            simp only [List.any_eq_false] at hnothread
            have := hnothread t hmem
            simp [hcontra] at this
          have hworkers0 : workers tasks = 0 := by
            simp only [workers]
            rw [List.countP_eq_zero]
            intro t ht
            obtain ⟨i1, -, -⟩ := hInv t ht
            have hfree := htasksfree t ht
            match hst : t.2 with
            | TaskStatus.pending => simp [isThread]
            | TaskStatus.thread false => exact absurd hst i1
            | TaskStatus.thread true => exact absurd hst hfree
            | TaskStatus.done => simp [isThread]
          have hbatch : workers (promote (nflows - workers tasks) tasks)
              ≤ nflows := by
            have := promote_workers (nflows - workers tasks) tasks
            omega
          have hInv2 : ∀ t ∈ tasks2, SchedInv t := by
            intro t ht
            rw [htasks2] at ht
            simp only [List.mem_map] at ht
            obtain ⟨t0, ht0, hmap⟩ := ht
            rcases promote_mem (nflows - workers tasks) tasks t0 ht0
              with hmem | ⟨hth, hpend⟩
            · obtain ⟨i1, i2, i3⟩ := hInv t0 hmem
              match hst : t0.2 with
              | TaskStatus.pending =>
                rw [hst] at hmap
                refine ⟨?_, ?_, ?_⟩ <;> rw [← hmap] <;> simp
              | TaskStatus.thread false => exact absurd hst i1
              | TaskStatus.thread true =>
                rw [hst] at hmap
                refine ⟨?_, ?_, ?_⟩ <;> rw [← hmap] <;> simp [i2 hst]
              | TaskStatus.done =>
                rw [hst] at hmap
                refine ⟨?_, ?_, ?_⟩ <;> rw [← hmap] <;> simp
                intro hemp
                exact absurd hst (i3 hemp)
            · rw [hth] at hmap
              simp only [runJobStatus] at hmap
              by_cases hemp : t0.1.isEmpty = true
              · rw [if_pos hemp] at hmap
                refine ⟨?_, ?_, ?_⟩ <;> rw [← hmap] <;> simp
                exact List.isEmpty_iff.mp hemp
              · rw [if_neg hemp] at hmap
                refine ⟨?_, ?_, ?_⟩ <;> rw [← hmap] <;> simp
                intro hc
                rw [List.isEmpty_iff] at hemp
                exact absurd hc hemp
          obtain ⟨hb1, hb2, hb3⟩ := ih tasks2 batches2 hInv2 hs
          refine ⟨?_, hb2, hb3⟩
          intro b hbmem
          simp only [List.mem_cons] at hbmem
          rcases hbmem with hb0 | hbrest
          · rw [hb0]; exact hbatch
          · exact hb1 b hbrest

/-- C6 counterexample.  The claim requires every submitted job's
Threads.tasks entry to reach done, including jobs whose source file is
empty.  A single job over an empty source completes via the early return
of split_series (sort.py lines 232-236), which never calls Threads.done:
the entry stays False (pending) forever. -/
theorem scheduler_claim_counterexample :
    splitSeriesDone defaultCmp false 1 ([] : List Int) = some false ∧
    sortHubSingle ([] : List Int) = [([], TaskStatus.pending)] ∧
    TaskStatus.pending ≠ TaskStatus.done := by
  refine ⟨rfl, rfl, by decide⟩

/-- C6 (amended).  Status-table behaviour of the scheduler: a done entry
is never reverted by a promotion step or by running a batch (first two
conjuncts); in the bounded path, starting from an all-pending table,
every batch of concurrently started jobs has size at most nflows, every
job with a non-empty source ends done, and a job with an empty source is
never marked done (third conjunct); a single synchronous job is marked
done iff its source is non-empty (last two conjuncts). -/
theorem scheduler_amended :
    (∀ (tasks tasks' : List (List α × TaskStatus)) (i : Nat) (src : List α),
        markThread tasks = some tasks' →
        tasks[i]? = some (src, TaskStatus.done) →
        tasks'[i]? = some (src, TaskStatus.done)) ∧
    (∀ (tasks tasks' : List (List α × TaskStatus)) (i : Nat) (src : List α),
        boundWorkers tasks = some tasks' →
        tasks[i]? = some (src, TaskStatus.done) →
        tasks'[i]? = some (src, TaskStatus.done)) ∧
    (∀ (fuel nflows : Nat) (tasks final : List (List α × TaskStatus))
        (batches : List Nat),
        (∀ t ∈ tasks, t.2 = TaskStatus.pending) →
        sortHubBounded fuel nflows tasks = some (final, batches) →
        (∀ b ∈ batches, b ≤ nflows) ∧
        (∀ t ∈ final, t.1 ≠ [] → t.2 = TaskStatus.done) ∧
        (∀ t ∈ final, t.1 = [] → t.2 ≠ TaskStatus.done)) ∧
    (∀ src : List α, src ≠ [] →
        sortHubSingle src = [(src, TaskStatus.done)]) ∧
    (∀ src : List α, src = [] →
        sortHubSingle src = [(src, TaskStatus.pending)]) := by
  refine ⟨?_, ?_, ?_, ?_, ?_⟩
  · intro tasks tasks' i src h hd
    exact markThread_done_preserved tasks tasks' h i src hd
  · intro tasks tasks' i src h hd
    exact boundWorkers_done_preserved tasks tasks' h i src hd
  · intro fuel nflows tasks final batches hpend h
    refine sortHubBounded_spec fuel nflows tasks final batches ?_ h
    intro t ht
    have := hpend t ht
    refine ⟨by rw [this]; simp, by rw [this]; simp, by rw [this]; simp⟩
  · intro src hne
    simp [sortHubSingle, runJobStatus, hne]
  · intro src he
    subst he
    rfl

theorem scheduler_amended_witness :
    (∀ t ∈ ([([1], TaskStatus.pending), ([2], TaskStatus.pending),
        ([3], TaskStatus.pending)] : List (List Int × TaskStatus)),
      t.2 = TaskStatus.pending) ∧
    sortHubBounded 5 2
        ([([1], TaskStatus.pending), ([2], TaskStatus.pending),
          ([3], TaskStatus.pending)] : List (List Int × TaskStatus)) =
      some ([([1], TaskStatus.done), ([2], TaskStatus.done),
        ([3], TaskStatus.done)], [2, 1]) ∧
    (∀ b ∈ [2, 1], b ≤ 2) := by
  have hpend : ∀ t ∈ ([([1], TaskStatus.pending), ([2], TaskStatus.pending),
      ([3], TaskStatus.pending)] : List (List Int × TaskStatus)),
      t.2 = TaskStatus.pending := by decide
  have hrun : sortHubBounded 5 2
      ([([1], TaskStatus.pending), ([2], TaskStatus.pending),
        ([3], TaskStatus.pending)] : List (List Int × TaskStatus)) =
      some ([([1], TaskStatus.done), ([2], TaskStatus.done),
        ([3], TaskStatus.done)], [2, 1]) := by decide
  exact ⟨hpend, hrun,
    ((@scheduler_amended Int).2.2.1 5 2 _ _ _ hpend hrun).1⟩

/-- Strip of leading and trailing whitespace as the int and float
builtins do before parsing. -/
def stripWS (cs : List Char) : List Char :=
  ((cs.dropWhile (fun c => c.isWhitespace)).reverse.dropWhile
    (fun c => c.isWhitespace)).reverse

def digitsToNat (cs : List Char) : Nat :=
  cs.foldl (fun a c => a * 10 + (c.toNat - 48)) 0

/-- Shallow model of the int builtin used by Reader._cast (reader.py
line 236): surrounding whitespace (such as the trailing newline kept by
readlines) is ignored, an optional sign is allowed, and the rest must be
decimal digits; anything else raises ValueError carrying the raw
value.  Digit-group underscores are not modelled. -/
def pyInt (s : String) : Option Int :=
  match stripWS s.toList with
  | [] => none
  | c :: cs =>
    if c = '-' then
      if cs ≠ [] ∧ cs.all Char.isDigit then some (-(digitsToNat cs : Int))
      else none
    else if c = '+' then
      if cs ≠ [] ∧ cs.all Char.isDigit then some (digitsToNat cs)
      else none
    else if (c :: cs).all Char.isDigit then some (digitsToNat (c :: cs))
    else none

/-- Type tags handled by Reader._cast (reader.py lines 226-243).  The f
tag is not modelled: floating point is outside the embedding, and no
claim exercises it. -/
inductive Dtype
  | i
  | s
deriving DecidableEq

inductive PyVal
  | vi (n : Int)
  | vs (str : String)
deriving DecidableEq

/-- Reader._cast (reader.py lines 226-243): under the i tag the raw item
is parsed as an int, a parse failure raising ValueError that carries the
offending raw value; under the s tag a non-empty item has its newlines
stripped, while an empty item tears the job down and raises. -/
def cast (item : String) (dtype : Dtype) : Except String PyVal :=
  match dtype with
  | .i =>
    match pyInt item with
    | some n => .ok (.vi n)
    | none => .error item
  | .s =>
    if item ≠ "" then .ok (.vs (item.replace "\n" ""))
    else .error item

/-- The content-type-mismatch error surfaced by _txt_gen (reader.py line
277).  The explicit message is fixed; the offending raw value travels as
the chained context: the original ValueError raised inside int() is
attached automatically by Python exception chaining. -/
structure ContentError where
  message : String
  context : String
deriving DecidableEq

def contentError (raw : String) : ContentError :=
  ⟨"File contents do not conform given dtype.", raw⟩

/-- File-system state relevant to one job: existence of its two
temporary tapes, existence of the shared temp directory, and the number
of entries other jobs currently keep inside that directory. -/
structure FsState where
  tmp0Exists : Bool
  tmp1Exists : Bool
  tempDirExists : Bool
  tempDirOtherEntries : Nat
deriving DecidableEq

/-- Reader.tear_down (reader.py lines 182-190): close_all has no
file-system effect, delete_tmp removes both temporary files, ignoring
missing ones (lines 163-171), and delete_dir removes the shared temp
directory with os.rmdir, which fails and is ignored while the directory
still holds entries of other jobs (lines 173-180). -/
def tearDown (fs : FsState) : FsState :=
  { tmp0Exists := false
    tmp1Exists := false
    tempDirExists := if fs.tempDirOtherEntries = 0 then false
      else fs.tempDirExists
    tempDirOtherEntries := fs.tempDirOtherEntries }

/-- Record parsing loop of Reader._txt_gen (reader.py lines 261-278):
each line is cast to the resolved tag; the first failure aborts the
generator with the offending raw value. -/
def txtGen (dtype : Dtype) : List String → Except String (List PyVal)
  | [] => .ok []
  | line :: rest =>
    match cast line dtype with
    | .ok v => (txtGen dtype rest).map (v :: ·)
    | .error raw => .error raw

/-- A .txt job's read phase with its error handling (reader.py lines
273-277): on a cast failure the generator calls tear_down and re-raises
the content-type-mismatch ValueError, whose chained context carries the
offending raw value.  No retry exists anywhere in the code: the error
propagates out of the job. -/
def runTxtJob (dtype : Dtype) (lines : List String) (fs : FsState) :
    Except ContentError (List PyVal) × FsState :=
  match txtGen dtype lines with
  | .ok vs => (.ok vs, fs)
  | .error raw => (.error (contentError raw), tearDown fs)

theorem txtGen_error_mem (dtype : Dtype) (lines : List String)
    (raw : String) (h : txtGen dtype lines = Except.error raw) :
    raw ∈ lines ∧ cast raw dtype = Except.error raw := by
  induction lines with
  | nil => simp [txtGen] at h
  | cons line rest ih =>
    simp only [txtGen] at h
    match hc : cast line dtype with
    | .ok v =>
      rw [hc] at h
      match ht : txtGen dtype rest with
      | .ok vs => rw [ht] at h; simp [Except.map] at h
      | .error raw' =>
        rw [ht] at h
        simp only [Except.map, Except.error.injEq] at h
        subst h
        obtain ⟨h1, h2⟩ := ih ht
        exact ⟨List.mem_cons_of_mem line h1, h2⟩
    | .error raw' =>
      rw [hc] at h
      simp only [Except.error.injEq] at h
      subst h
      have : cast line dtype = Except.error line := by
        match dtype with
        | .i =>
          simp only [cast] at hc ⊢
          match hp : pyInt line with
          | some n => rw [hp] at hc; simp at hc
          | none => rfl
        | .s =>
          simp only [cast] at hc ⊢
          by_cases he : line = ""
          · simp [he]
          · simp [he] at hc
      rw [this] at hc
      simp only [Except.error.injEq] at hc
      subst hc
      exact ⟨List.mem_cons_self line rest, this⟩

/-- C7.  Content-type mismatch under the integer tag: when some line of
the source cannot be cast, the job fails with the content-type-mismatch
error whose chained context carries the offending raw value, and after
the teardown the job's temporary tapes are gone and the shared temp
directory is removed as well when no other job keeps entries in it. -/
theorem content_mismatch (lines : List String) (raw : String)
    (fs : FsState) (h : txtGen Dtype.i lines = Except.error raw) :
    (raw ∈ lines ∧ pyInt raw = none) ∧
    (runTxtJob Dtype.i lines fs).1 = Except.error (contentError raw) ∧
    (contentError raw).context = raw ∧
    (runTxtJob Dtype.i lines fs).2.tmp0Exists = false ∧
    (runTxtJob Dtype.i lines fs).2.tmp1Exists = false ∧
    (fs.tempDirOtherEntries = 0 →
      (runTxtJob Dtype.i lines fs).2.tempDirExists = false) := by
  obtain ⟨hmem, hcast⟩ := txtGen_error_mem Dtype.i lines raw h
  have hpy : pyInt raw = none := by
    simp only [cast] at hcast
    match hp : pyInt raw with
    | some n => rw [hp] at hcast; simp at hcast
    | none => rfl
  refine ⟨⟨hmem, hpy⟩, ?_, rfl, ?_, ?_, ?_⟩ <;>
    simp only [runTxtJob, h] <;> simp [tearDown]
  intro h0
  simp [h0]

theorem content_mismatch_witness :
    txtGen Dtype.i ["12", "abc"] = Except.error "abc" ∧
      (runTxtJob Dtype.i ["12", "abc"] ⟨true, true, true, 0⟩).1 =
        Except.error (contentError "abc") ∧
      (runTxtJob Dtype.i ["12", "abc"] ⟨true, true, true, 0⟩).2 =
        ⟨false, false, false, 0⟩ := by
  have h : txtGen Dtype.i ["12", "abc"] = Except.error "abc" := by rfl
  have happ := content_mismatch ["12", "abc"] "abc" ⟨true, true, true, 0⟩ h
  refine ⟨h, happ.2.1, ?_⟩
  rfl

inductive CsvErr
  | configError
  | contentTypeError (raw : String)
  | keyError (key : String)
  | indexError
deriving DecidableEq

/-- A tabular source as csv.DictReader presents it: the header names in
file order, and the rows as value lists aligned with the header. -/
structure CsvFile where
  header : List String
  rows : List (List String)
deriving DecidableEq

/-- Pre-loop tag handling of _csv_gen (reader.py lines 309-317): a
single supplied tag is replicated over the supplied key columns; when
tags and key columns were both supplied with different counts, the
ValueError is raised here, before any row is read.  Key columns are the
tuple the CLI supplies (an empty tuple when the option is absent). -/
def csvPre : List Dtype → List String → Except CsvErr (List Dtype)
  | [d], keys => Except.ok (keys.map (fun _ => d))
  | dtype, keys =>
    if dtype ≠ [] ∧ keys ≠ [] ∧ dtype.length ≠ keys.length then
      Except.error CsvErr.configError
    else Except.ok dtype

/-- Key-column defaulting of _csv_gen (reader.py lines 320-321): when no
key columns were supplied, all columns of the first row become key
columns, in file order (csv.DictReader preserves header order). -/
def effKeys (keys header : List String) : List String :=
  if keys = [] then header else keys

/-- Tag inference of _auto_cast_csv and _auto_cast (reader.py lines
293-307, 245-259) when no tags were supplied: a tag is inferred from the
first row's value of each key column, walking the columns in file
order.  Only the int-versus-text distinction is modelled; float literals
are outside the embedding and no claim exercises them. -/
def autoTags (header row0 keys : List String) : List Dtype :=
  ((header.zip row0).filter (fun p => p.1 ∈ keys)).map
    (fun p => if (pyInt p.2).isSome then Dtype.i else Dtype.s)

/-- Field casting of one row (reader.py lines 325-330): the columns are
walked in file order, each key column is cast with the next tag in
sequence; running out of tags is an IndexError, which the ValueError
handler does not catch. -/
def castFields (keys : List String) (dtype : List Dtype) (i : Nat) :
    List (String × String) → Except CsvErr (List PyVal)
  | [] => Except.ok []
  | (k, v) :: rest =>
    if k ∈ keys then
      match dtype[i]? with
      | none => Except.error CsvErr.indexError
      | some d =>
        match cast v d with
        | Except.error raw => Except.error (CsvErr.contentTypeError raw)
        | Except.ok val => (castFields keys dtype (i + 1) rest).map (val :: ·)
    else castFields keys dtype i rest

/-- Rows after the first one only cast their fields (reader.py lines
319-345). -/
def csvRows (keys : List String) (dtype : List Dtype)
    (header : List String) :
    List (List String) → Except CsvErr (List (List PyVal))
  | [] => Except.ok []
  | r :: rest =>
    match castFields keys dtype 0 (header.zip r) with
    | Except.error e => Except.error e
    | Except.ok vals => (csvRows keys dtype header rest).map (vals :: ·)

/-- Reader._csv_gen (reader.py lines 280-346): pre-loop tag handling,
then the row loop.  On the first row the effective key columns and tags
are fixed, the fields are cast, the header is recorded and every
supplied key is checked against it (KeyError when one is missing); the
remaining rows only cast fields. -/
def csvGen (dtype : List Dtype) (keys : List String) (file : CsvFile) :
    Except CsvErr (List (List PyVal)) :=
  match csvPre dtype keys with
  | Except.error e => Except.error e
  | Except.ok dtype1 =>
    match file.rows with
    | [] => Except.ok []
    | r0 :: rest =>
      let keys1 := effKeys keys file.header
      let dtype2 := if dtype1 = [] then autoTags file.header r0 keys1
        else dtype1
      match castFields keys1 dtype2 0 (file.header.zip r0) with
      | Except.error e => Except.error e
      | Except.ok v0 =>
        if keys1.all (fun k => decide (k ∈ file.header)) then
          (csvRows keys1 dtype2 file.header rest).map (v0 :: ·)
        else
          Except.error (CsvErr.keyError
            ((keys1.find? (fun k => !(decide (k ∈ file.header)))).getD ""))

/-- C8 counterexample.  With no key columns supplied, two type tags and
a one-column file, the count of tags differs from the count of
(effective) key columns, yet no configuration error is reported: the
row is read, cast with the first tag, and yielded (the surplus tag is
silently ignored). -/
theorem csv_config_counterexample :
    csvGen [Dtype.i, Dtype.i] [] ⟨["a"], [["7"]]⟩ =
      Except.ok [[PyVal.vi 7]] ∧
    (Except.ok [[PyVal.vi 7]] :
        Except CsvErr (List (List PyVal))) ≠
      Except.error CsvErr.configError := by
  refine ⟨rfl, ?_⟩
  intro hcontra
  exact Except.noConfusion hcontra

/-- C8 (amended).  For tabular sources: (1) when no key columns are
supplied, all columns become key columns in file order — running with no
keys behaves exactly like running with the header as keys, whenever the
tag count matches the column count and is not the special singleton
case; (2) one supplied tag applies to every supplied key column: running
with a single tag equals running with that tag replicated over the
keys; (3) when key columns are explicitly supplied and the supplied tag
count differs from the supplied key count (and is not one), the
configuration error is reported before any record is read — the result
is the configuration error for every file, whatever its rows. -/
theorem csv_key_tag_rules :
    (∀ (dtype : List Dtype) (file : CsvFile),
        dtype.length ≠ 1 →
        (dtype = [] ∨ dtype.length = file.header.length) →
        csvGen dtype [] file = csvGen dtype file.header file) ∧
    (∀ (d : Dtype) (keys : List String) (file : CsvFile),
        csvGen [d] keys file = csvGen (keys.map (fun _ => d)) keys file) ∧
    (∀ (dtype : List Dtype) (keys : List String) (file : CsvFile),
        dtype ≠ [] → keys ≠ [] → dtype.length ≠ 1 →
        dtype.length ≠ keys.length →
        csvGen dtype keys file = Except.error CsvErr.configError) := by
  refine ⟨?_, ?_, ?_⟩
  · intro dtype file hne hlen
    have hpre1 : csvPre dtype [] = Except.ok dtype := by
      match dtype with
      | [] => rfl
      | [d] => exact absurd rfl hne
      | d1 :: d2 :: ds => simp [csvPre]
    have hpre2 : csvPre dtype file.header = Except.ok dtype := by
      match dtype with
      | [] => simp [csvPre]
      | [d] => exact absurd rfl hne
      | d1 :: d2 :: ds =>
        rcases hlen with hlen | hlen
        · exact absurd hlen (by simp)
        · simp [csvPre, hlen]
    have hkeys : effKeys [] file.header = effKeys file.header file.header := by
      by_cases hh : file.header = []
      · simp [effKeys, hh]
      · simp [effKeys, hh]
    simp only [csvGen, hpre1, hpre2, hkeys]
  · intro d keys file
    have hpre1 : csvPre [d] keys = Except.ok (keys.map (fun _ => d)) := rfl
    have hpre2 : csvPre (keys.map (fun _ => d)) keys =
        Except.ok (keys.map (fun _ => d)) := by
      match hk : keys with
      | [] => rfl
      | [k] => rfl
      | k1 :: k2 :: ks => simp [csvPre]
    have hkeys : effKeys keys keys = keys := by
      by_cases hh : keys = []
      · simp [effKeys, hh]
      · simp [effKeys, hh]
    simp only [csvGen, hpre1, hpre2]
  · intro dtype keys file hd hk hne hcount
    have hpre : csvPre dtype keys = Except.error CsvErr.configError := by
      match dtype with
      | [] => exact absurd rfl hd
      | [d] => exact absurd rfl hne
      | d1 :: d2 :: ds =>
        simp only [List.length_cons] at hcount
        simp [csvPre, hk]
        omega
    simp [csvGen, hpre]

theorem csv_key_tag_rules_witness :
    ([Dtype.i, Dtype.i] : List Dtype).length ≠ 1 ∧
      ([Dtype.i, Dtype.i] : List Dtype).length =
        (CsvFile.mk ["a", "b"] [["1", "2"]]).header.length ∧
      csvGen [Dtype.i, Dtype.i] [] ⟨["a", "b"], [["1", "2"]]⟩ =
        csvGen [Dtype.i, Dtype.i] ["a", "b"] ⟨["a", "b"], [["1", "2"]]⟩ ∧
      csvGen [Dtype.i, Dtype.i] ["a"] ⟨["a", "b"], [["1", "2"]]⟩ =
        Except.error CsvErr.configError := by
  refine ⟨by decide, by decide, ?_, ?_⟩
  · exact csv_key_tag_rules.1 [Dtype.i, Dtype.i] ⟨["a", "b"], [["1", "2"]]⟩
      (by decide) (Or.inr (by decide))
  · exact csv_key_tag_rules.2.2 [Dtype.i, Dtype.i] ["a"]
      ⟨["a", "b"], [["1", "2"]]⟩ (by simp) (by simp) (by decide) (by decide)

end ExternalSort
